import Mathlib

/-!
Shallow embedding of the `cpu_caches` repository (src/lib.rs and src/main.rs).

The benchmark harness (`Benchmark` in src/lib.rs) stores a name, a list of
per-iteration results (u32 in Rust, modelled as Nat) and a list of elapsed
durations (`std::time::Duration`, modelled as Nat nanoseconds: the `Ord` on
`Duration` and its division by a scalar agree with the natural-number order
and floor division on total nanoseconds).

`Benchmark::print` can panic at two sites, which the embedding reflects as
distinct `Except` errors:
- the `assert!` on line 26 of lib.rs (all results equal), modelled as
  `PrintError.assertFailed`;
- the division `sum / len as u32` on line 29, which in Rust panics with a
  divide-by-zero when `len = 0` (`Duration`s `Div<u32>` calls `checked_div`
  and panics on a zero divisor), modelled as `PrintError.divByZero`.
On success, `print` sorts the durations in place and emits four statistics.

The chunked parallel reducer (`count_odds_parallel` and
`count_odds_parallel_optimized` in src/main.rs) is embedded with generic
dimension `dim` and worker count `wc` (the source fixes `DIM = 10_000` and
`P = 4`); the buffer is a total function `Nat → Nat` giving the byte at each
flat index, since workers only read it.  The sequential workload
(`count_odds_sequential`) and both parallel workers are nested `foldl`s
mirroring the nested `for` loops, with the per-worker slot threaded through
the fold exactly as the source threads `*results_p` (non-optimized) or the
local `odds` (optimized).
-/

namespace CpuCaches

/-- The benchmark harness state (struct `Benchmark` in src/lib.rs). -/
structure Benchmark where
  name : String
  results : List Nat
  durations : List Nat
deriving Repr, DecidableEq

/-- `Benchmark::new` in src/lib.rs. -/
def Benchmark.new (name : String) : Benchmark :=
  { name, results := [], durations := [] }

/-- `Benchmark::add` in src/lib.rs: push one (result, duration) record. -/
def Benchmark.add (b : Benchmark) (result : Nat) (duration : Nat) : Benchmark :=
  { b with results := b.results ++ [result], durations := b.durations ++ [duration] }

/-- The two panic sites of `Benchmark::print`. -/
inductive PrintError where
  | assertFailed
  | divByZero
deriving Repr, DecidableEq

/-- The four statistics emitted by `Benchmark::print`. -/
structure Stats where
  avg : Nat
  mid : Nat
  min : Nat
  max : Nat
deriving Repr, DecidableEq

/-- `Benchmark::print` in src/lib.rs.  The `assert!` checks
`results.iter().all(|&r| r == results[0])`; on an empty `results` the
iterator is empty and `all` is vacuously true (the closure, and hence the
indexing `results[0]`, is never evaluated).  Then the durations are sorted
in place, and `sum / len` is computed: for `len = 0` the `Duration`
division panics (divByZero).  Otherwise `get(len / 2)`, `first()` and
`last()` all succeed and the statistics are emitted; the mutated harness
(with sorted durations) and the statistics are returned. -/
def Benchmark.print (b : Benchmark) : Except PrintError (Benchmark × Stats) :=
  if b.results.all (fun r => r == b.results.headD 0) then
    let sorted := b.durations.insertionSort (· ≤ ·)
    let len := sorted.length
    if len = 0 then
      Except.error PrintError.divByZero
    else
      Except.ok ({ b with durations := sorted },
        { avg := sorted.sum / len
          mid := sorted.getD (len / 2) 0
          min := sorted.headD 0
          max := sorted.getLastD 0 })
  else
    Except.error PrintError.assertFailed

/-- `DIM` in src/main.rs. -/
def DIM : Nat := 10000

/-- `chunk_size` as computed by each worker in `count_odds_parallel`
(src/main.rs line 91): `DIM / P + 1`, with generic `dim` and worker
count `wc`. -/
def chunk_size (dim wc : Nat) : Nat := dim / wc + 1

/-- `my_start` (src/main.rs line 92): `p * chunk_size`. -/
def my_start (dim wc p : Nat) : Nat := p * chunk_size dim wc

/-- `my_end` (src/main.rs line 93): `min(my_start + chunk_size, DIM)`. -/
def my_end (dim wc p : Nat) : Nat := min (my_start dim wc p + chunk_size dim wc) dim

/-- The list of `[start, end)` ranges handed to the `wc` workers. -/
def Partition (dim wc : Nat) : List (Nat × Nat) :=
  (List.range wc).map (fun p => (my_start dim wc p, my_end dim wc p))

/-- The inner `for j in 0..DIM` loop: fold the odd-test increment over a row,
starting from the accumulator value `acc`. -/
def rowFold (m : Nat → Nat) (dim i acc : Nat) : Nat :=
  (List.range dim).foldl (fun acc j => if m (i * dim + j) % 2 ≠ 0 then acc + 1 else acc) acc

/-- `count_odds_sequential`s timed body (src/main.rs lines 68-76): nested
loops over `i` and `j`, accumulating `odds` from 0. -/
def count_odds_sequential (m : Nat → Nat) (dim : Nat) : Nat :=
  (List.range dim).foldl (fun odds i => rowFold m dim i odds) 0

/-- One worker of `count_odds_parallel` (src/main.rs lines 90-100): the
accumulator is the workers slot `*results_p`, threaded through every
increment starting from the slots initial value `slot`. -/
def worker_inplace (m : Nat → Nat) (dim wc p slot : Nat) : Nat :=
  (List.range' (my_start dim wc p) (my_end dim wc p - my_start dim wc p)).foldl
    (fun acc i => rowFold m dim i acc) slot

/-- One worker of `count_odds_parallel_optimized` (src/main.rs lines
118-130): a private local `odds` accumulates from 0, and the slot is
overwritten once at the end, discarding its initial value `slot`. -/
def worker_local (m : Nat → Nat) (dim wc p _slot : Nat) : Nat :=
  (List.range' (my_start dim wc p) (my_end dim wc p - my_start dim wc p)).foldl
    (fun acc i => rowFold m dim i acc) 0

/-- The per-iteration result of `count_odds_parallel`: the slots start at 0
(`let mut results = [0; P]`), each worker mutates its own slot in place, and
after the barrier the slots are summed (`results.iter().sum()`). -/
def count_odds_parallel (m : Nat → Nat) (dim wc : Nat) : Nat :=
  ((List.range wc).map (fun p => worker_inplace m dim wc p 0)).sum

/-- The per-iteration result of `count_odds_parallel_optimized`: same slots,
but each worker writes its locally accumulated count once. -/
def count_odds_parallel_optimized (m : Nat → Nat) (dim wc : Nat) : Nat :=
  ((List.range wc).map (fun p => worker_local m dim wc p 0)).sum

/-! ### Helper lemmas about the fold structure of the workloads -/

lemma foldl_ite_add (q : Nat → Prop) [DecidablePred q] :
    ∀ (l : List Nat) (acc : Nat),
      l.foldl (fun a j => if q j then a + 1 else a) acc
        = acc + l.foldl (fun a j => if q j then a + 1 else a) 0
  | [], acc => by simp
  | x :: l, acc => by
    simp only [List.foldl_cons]
    rw [foldl_ite_add q l, foldl_ite_add q l (if q x then 0 + 1 else 0)]
    split <;> omega

lemma rowFold_eq (m : Nat → Nat) (dim i acc : Nat) :
    rowFold m dim i acc = acc + rowFold m dim i 0 :=
  foldl_ite_add _ _ _

lemma foldl_rows_eq (m : Nat → Nat) (dim : Nat) :
    ∀ (l : List Nat) (a : Nat),
      l.foldl (fun acc i => rowFold m dim i acc) a
        = a + (l.map (fun i => rowFold m dim i 0)).sum
  | [], a => by simp
  | x :: l, a => by
    simp only [List.foldl_cons, List.map_cons, List.sum_cons]
    rw [foldl_rows_eq m dim l (rowFold m dim x a), rowFold_eq m dim x a]
    omega

/-- Sum of the per-row odd counts over the rows `[s, s + n)`. -/
def rowsSum (m : Nat → Nat) (dim s n : Nat) : Nat :=
  ((List.range' s n).map (fun i => rowFold m dim i 0)).sum

lemma rowsSum_split (m : Nat → Nat) (dim a b : Nat) (hab : a ≤ b) :
    rowsSum m dim 0 a + rowsSum m dim a (b - a) = rowsSum m dim 0 b := by
  unfold rowsSum
  rw [← List.sum_append, ← List.map_append]
  have h := List.range'_append 0 a (b - a) 1
  rw [Nat.zero_add, Nat.one_mul] at h
  have hb : b - a + a = b := by omega
  rw [h, hb]

lemma worker_rowsSum (m : Nat → Nat) (dim wc p : Nat) :
    worker_inplace m dim wc p 0
      = rowsSum m dim (my_start dim wc p) (my_end dim wc p - my_start dim wc p) := by
  unfold worker_inplace rowsSum
  rw [foldl_rows_eq]
  exact Nat.zero_add _

lemma worker_chunk (m : Nat → Nat) (dim wc p : Nat) :
    worker_inplace m dim wc p 0
      = rowsSum m dim (min (p * chunk_size dim wc) dim)
          (min ((p + 1) * chunk_size dim wc) dim
            - min (p * chunk_size dim wc) dim) := by
  rw [worker_rowsSum]
  unfold my_end my_start
  rw [Nat.add_one_mul]
  rcases Nat.le_total (p * chunk_size dim wc) dim with h | h
  · rw [Nat.min_eq_left h]
  · have h1 : min (p * chunk_size dim wc) dim = dim := Nat.min_eq_right h
    rw [h1]
    have e1 : min (p * chunk_size dim wc + chunk_size dim wc) dim
        - p * chunk_size dim wc = 0 := by omega
    have e2 : min (p * chunk_size dim wc + chunk_size dim wc) dim - dim = 0 := by
      omega
    rw [e1, e2]
    simp [rowsSum]

lemma sum_chunks (m : Nat → Nat) (dim cs : Nat) : ∀ k : Nat,
    ((List.range k).map (fun p => rowsSum m dim (min (p * cs) dim)
        (min ((p + 1) * cs) dim - min (p * cs) dim))).sum
      = rowsSum m dim 0 (min (k * cs) dim)
  | 0 => by simp [rowsSum]
  | k + 1 => by
    rw [List.range_succ, List.map_append, List.sum_append, sum_chunks m dim cs k]
    simp only [List.map_cons, List.map_nil, List.sum_cons, List.sum_nil, Nat.add_zero]
    have hmono : k * cs ≤ (k + 1) * cs := Nat.mul_le_mul_right cs (Nat.le_succ k)
    have hab : min (k * cs) dim ≤ min ((k + 1) * cs) dim := by omega
    exact rowsSum_split m dim (min (k * cs) dim) (min ((k + 1) * cs) dim) hab

lemma dim_le_wc_mul_chunk (dim wc : Nat) (h : 1 ≤ wc) :
    dim ≤ wc * chunk_size dim wc := by
  unfold chunk_size
  have h1 := Nat.div_add_mod dim wc
  have h2 : dim % wc < wc := Nat.mod_lt _ h
  have h3 : wc * (dim / wc + 1) = wc * (dim / wc) + wc := by ring
  omega

lemma sequential_rowsSum (m : Nat → Nat) (dim : Nat) :
    count_odds_sequential m dim = rowsSum m dim 0 dim := by
  unfold count_odds_sequential rowsSum
  rw [List.range_eq_range', foldl_rows_eq]
  exact Nat.zero_add _

/-! ### Claim theorems for the chunked parallel reducer -/

/-- C1: for every buffer `m` and every worker count `wc` in `[1, N]`,
partitioning the `N` rows into `wc` contiguous chunks with the reference
chunk formula and summing the per-chunk odd counts, as `count_odds_parallel`
does, yields the same total as the single-threaded sequential odd count. -/
theorem parallel_eq_sequential (m : Nat → Nat) (N wc : Nat)
    (h1 : 1 ≤ wc) (_h2 : wc ≤ N) :
    count_odds_parallel m N wc = count_odds_sequential m N := by
  unfold count_odds_parallel
  have hmap : ((List.range wc).map (fun p => worker_inplace m N wc p 0)).sum
      = ((List.range wc).map (fun p => rowsSum m N (min (p * chunk_size N wc) N)
          (min ((p + 1) * chunk_size N wc) N
            - min (p * chunk_size N wc) N))).sum := by
    simp only [worker_chunk]
  rw [hmap, sum_chunks m N (chunk_size N wc) wc,
    Nat.min_eq_right (dim_le_wc_mul_chunk N wc h1), sequential_rowsSum]

/-- Witness for C1 at buffer `fun i => i`, `N = 5`, `wc = 2`. -/
theorem parallel_eq_sequential_witness :
    1 ≤ 2 ∧ 2 ≤ 5 ∧
      count_odds_parallel (fun i => i) 5 2 = count_odds_sequential (fun i => i) 5 :=
  ⟨by decide, by decide,
    parallel_eq_sequential (fun i => i) 5 2 (by decide) (by decide)⟩

/-- C9: for every input buffer, the optimized parallel variant (private local
accumulator, slot written once) produces the same per-iteration result as the
non-optimized variant (slot incremented in place on every matching element);
in this sequential embedding both workers compute the same fold from the
slots initial value 0, so the totals coincide definitionally. -/
theorem optimized_eq_parallel (m : Nat → Nat) (dim wc : Nat) :
    count_odds_parallel_optimized m dim wc = count_odds_parallel m dim wc := rfl

/-! ### Helper lemmas about `Benchmark.print` -/

lemma headD_eq_getD_zero (l : List Nat) : l.headD 0 = l.getD 0 0 := by
  cases l <;> rfl

lemma all_eq_iff_getD (l : List Nat) :
    (l.all (fun r => r == l.headD 0) = true)
      ↔ ∀ i, i < l.length → l.getD i 0 = l.getD 0 0 := by
  rw [List.all_eq_true]
  constructor
  · intro h i hi
    have hmem : l.getD i 0 ∈ l := by
      rw [List.getD_eq_getElem l 0 hi]
      exact List.getElem_mem hi
    have h2 := h _ hmem
    rw [beq_iff_eq] at h2
    rw [h2, headD_eq_getD_zero]
  · intro h x hx
    rcases List.mem_iff_getElem.mp hx with ⟨i, hi, rfl⟩
    rw [beq_iff_eq, headD_eq_getD_zero, ← List.getD_eq_getElem l 0 hi]
    exact h i hi

lemma print_of_all_eq (b : Benchmark)
    (hall : b.results.all (fun r => r == b.results.headD 0) = true)
    (hne : b.durations ≠ []) :
    b.print = Except.ok
      ({ b with durations := b.durations.insertionSort (· ≤ ·) },
        { avg := (b.durations.insertionSort (· ≤ ·)).sum / b.durations.length
          mid := (b.durations.insertionSort (· ≤ ·)).getD (b.durations.length / 2) 0
          min := (b.durations.insertionSort (· ≤ ·)).headD 0
          max := (b.durations.insertionSort (· ≤ ·)).getLastD 0 }) := by
  have hlen : (b.durations.insertionSort (· ≤ ·)).length = b.durations.length :=
    List.length_insertionSort _ _
  have hlz : ¬ (b.durations.insertionSort (· ≤ ·)).length = 0 := by
    rw [hlen]
    intro h0
    exact hne (List.length_eq_zero.mp h0)
  unfold Benchmark.print
  rw [if_pos hall, if_neg hlz, hlen]

lemma print_nil_durations (b : Benchmark)
    (hall : b.results.all (fun r => r == b.results.headD 0) = true)
    (hd : b.durations = []) :
    b.print = Except.error PrintError.divByZero := by
  unfold Benchmark.print
  rw [if_pos hall, hd]
  rfl

lemma print_assert_error_iff (b : Benchmark) :
    b.print = Except.error PrintError.assertFailed
      ↔ b.results.all (fun r => r == b.results.headD 0) = false := by
  constructor
  · intro h
    by_contra hfalse
    have htrue : b.results.all (fun r => r == b.results.headD 0) = true := by
      cases hx : b.results.all (fun r => r == b.results.headD 0)
      · exact absurd hx hfalse
      · rfl
    by_cases hd : b.durations = []
    · rw [print_nil_durations b htrue hd] at h
      simp at h
    · rw [print_of_all_eq b htrue hd] at h
      simp at h
  · intro h
    unfold Benchmark.print
    rw [if_neg (by rw [h]; exact Bool.false_ne_true)]

/-! ### Claim theorems for the benchmark harness error paths -/

/-- C2 (counterexample): `print` on a harness with zero recorded iterations
reaches the division with a zero count: the embedded outcome is the
divide-by-zero panic of the `Duration` division, not a distinct guarded
empty-data condition (the all-equal `assert!` passes vacuously on the empty
`results`). -/
theorem print_empty_hits_division :
    (Benchmark.new "count_odds_sequential").print
      = Except.error PrintError.divByZero := rfl

/-- C2 (amended): `print` called with zero recorded iterations executes the
average division with a zero count and fails with the divide-by-zero panic;
no distinct empty-data condition exists in the code. -/
theorem print_empty_divByZero (b : Benchmark)
    (hres : b.results = []) (hdur : b.durations = []) :
    b.print = Except.error PrintError.divByZero := by
  obtain ⟨n, res, dur⟩ := b
  obtain rfl : res = [] := hres
  obtain rfl : dur = [] := hdur
  rfl

/-- Witness for the amended C2 at a freshly created harness. -/
theorem print_empty_divByZero_witness :
    (Benchmark.new "count_odds_parallel").print
      = Except.error PrintError.divByZero :=
  print_empty_divByZero (Benchmark.new "count_odds_parallel") rfl rfl

/-- C3: `print` fails with the correctness-violation condition (the
`assert!` panic) exactly when two recorded results differ, and the failure
happens before any statistics are produced (the error is returned instead of
the statistics); when all recorded results are equal and at least one
iteration was recorded, `print` proceeds and emits the statistics. -/
theorem print_assert_iff_results_differ (b : Benchmark)
    (hlen : b.results.length = b.durations.length) :
    (b.print = Except.error PrintError.assertFailed
        ↔ ∃ i j, i < b.results.length ∧ j < b.results.length
            ∧ b.results.getD i 0 ≠ b.results.getD j 0)
      ∧ ((∀ i, i < b.results.length → b.results.getD i 0 = b.results.getD 0 0)
          → b.results ≠ [] → ∃ b2 s, b.print = Except.ok (b2, s)) := by
  constructor
  · rw [print_assert_error_iff]
    constructor
    · intro hfalse
      have hne : ¬ ∀ i, i < b.results.length
          → b.results.getD i 0 = b.results.getD 0 0 := by
        intro hall
        rw [(all_eq_iff_getD b.results).mpr hall] at hfalse
        cases hfalse
      push_neg at hne
      obtain ⟨i, hi, hid⟩ := hne
      exact ⟨i, 0, hi, by omega, hid⟩
    · rintro ⟨i, j, hi, hj, hij⟩
      rcases h : b.results.all (fun r => r == b.results.headD 0) with _ | _
      · rfl
      · exfalso
        have hall := (all_eq_iff_getD b.results).mp h
        exact hij ((hall i hi).trans (hall j hj).symm)
  · intro hall hne
    have hdne : b.durations ≠ [] := by
      intro hd
      apply hne
      have h0 : b.results.length = 0 := by rw [hlen, hd]; rfl
      exact List.length_eq_zero.mp h0
    exact ⟨_, _, print_of_all_eq b ((all_eq_iff_getD b.results).mpr hall) hdne⟩

/-- Witness for C3: on recorded results `[7, 7, 8]` two results differ, so
`print` fails with the correctness-violation condition. -/
theorem print_assert_iff_results_differ_witness :
    (Benchmark.mk "count_odds_col_major_traversal" [7, 7, 8] [1, 2, 3]).print
      = Except.error PrintError.assertFailed :=
  (print_assert_iff_results_differ
      (Benchmark.mk "count_odds_col_major_traversal" [7, 7, 8] [1, 2, 3]) rfl).1.mpr
    ⟨1, 2, by decide, by decide, by decide⟩

/-! ### Claim theorems for the emitted statistics -/

/-- C5: on a valid non-empty harness, the statistics come from the
ascending-sorted permutation of the recorded durations: the median is the
element at index `count / 2` of that sorted sequence (the upper-middle one
for even counts), the min its first element, the max its last; and for
durations `[1, 2, 3, 4]` the median is the element at index 2, namely 3. -/
theorem print_median_min_max_sorted :
    (∀ b : Benchmark,
        (∀ i, i < b.results.length → b.results.getD i 0 = b.results.getD 0 0) →
        b.durations ≠ [] →
        ∃ b2 s, b.print = Except.ok (b2, s) ∧
          ∃ sorted : List Nat, sorted.Perm b.durations ∧ sorted.Sorted (· ≤ ·)
            ∧ s.mid = sorted.getD (b.durations.length / 2) 0
            ∧ s.min = sorted.headD 0
            ∧ s.max = sorted.getLastD 0)
      ∧ (∃ b2 s,
          (Benchmark.mk "count_odds_parallel" [5, 5, 5, 5] [1, 2, 3, 4]).print
              = Except.ok (b2, s)
            ∧ s.mid = 3) := by
  constructor
  · intro b hall hne
    exact ⟨_, _, print_of_all_eq b ((all_eq_iff_getD b.results).mpr hall) hne,
      b.durations.insertionSort (· ≤ ·), List.perm_insertionSort _ _,
      List.sorted_insertionSort _ _, rfl, rfl, rfl⟩
  · exact ⟨_, _, rfl, rfl⟩

/-- Witness for C5 on durations `[3, 1, 2]` recorded out of order. -/
theorem print_median_min_max_sorted_witness :
    ∃ b2 s,
      (Benchmark.mk "count_odds_row_major_traversal" [7, 7, 7] [3, 1, 2]).print
          = Except.ok (b2, s) ∧
        ∃ sorted : List Nat, sorted.Perm [3, 1, 2] ∧ sorted.Sorted (· ≤ ·)
          ∧ s.mid = sorted.getD (([3, 1, 2] : List Nat).length / 2) 0
          ∧ s.min = sorted.headD 0
          ∧ s.max = sorted.getLastD 0 :=
  print_median_min_max_sorted.1
    (Benchmark.mk "count_odds_row_major_traversal" [7, 7, 7] [3, 1, 2])
    (by decide) (by decide)

/-- C6: on a valid non-empty harness the average is the sum of all recorded
durations divided by their count, with truncating natural-number division at
the duration representation (total nanoseconds); and for durations
`[1, 2, 3, 4, 5]` the average is 3, the median 3, the min 1, the max 5. -/
theorem print_average_truncating :
    (∀ b : Benchmark,
        (∀ i, i < b.results.length → b.results.getD i 0 = b.results.getD 0 0) →
        b.durations ≠ [] →
        ∃ b2 s, b.print = Except.ok (b2, s)
          ∧ s.avg = b.durations.sum / b.durations.length)
      ∧ (∃ b2 s,
          (Benchmark.mk "count_odds_sequential" [9, 9, 9, 9, 9] [1, 2, 3, 4, 5]).print
              = Except.ok (b2, s)
            ∧ s.avg = 3 ∧ s.mid = 3 ∧ s.min = 1 ∧ s.max = 5) := by
  constructor
  · intro b hall hne
    refine ⟨_, _, print_of_all_eq b ((all_eq_iff_getD b.results).mpr hall) hne, ?_⟩
    show (b.durations.insertionSort (· ≤ ·)).sum / b.durations.length
        = b.durations.sum / b.durations.length
    rw [(List.perm_insertionSort (· ≤ ·) b.durations).sum_eq]
  · exact ⟨_, _, rfl, rfl, rfl, rfl, rfl⟩

/-- Witness for C6 on durations `[2, 1, 6]`: the average is `9 / 3 = 3`. -/
theorem print_average_truncating_witness :
    ∃ b2 s,
      (Benchmark.mk "count_odds_col_major_traversal" [4, 4] [2, 1]).print
          = Except.ok (b2, s)
        ∧ s.avg = ([2, 1] : List Nat).sum / ([2, 1] : List Nat).length :=
  print_average_truncating.1
    (Benchmark.mk "count_odds_col_major_traversal" [4, 4] [2, 1])
    (by decide) (by decide)

/-! ### Order and bound lemmas for sorted duration lists -/

lemma sorted_getD_mono (l : List Nat) (hs : l.Sorted (· ≤ ·))
    (i j : Nat) (hij : i ≤ j) (hj : j < l.length) :
    l.getD i 0 ≤ l.getD j 0 := by
  have hi : i < l.length := Nat.lt_of_le_of_lt hij hj
  rw [List.getD_eq_getElem l 0 hi, List.getD_eq_getElem l 0 hj]
  have h := hs.rel_get_of_le (a := ⟨i, hi⟩) (b := ⟨j, hj⟩) hij
  simpa [List.get_eq_getElem] using h

lemma getLastD_eq_getD (l : List Nat) (hne : l ≠ []) :
    l.getLastD 0 = l.getD (l.length - 1) 0 := by
  have hpos : 0 < l.length := List.length_pos.mpr hne
  rw [List.getLastD_eq_getLast?, List.getLast?_eq_getLast l hne, Option.getD_some,
    List.getLast_eq_getElem, List.getD_eq_getElem l 0 (by omega)]

lemma sorted_bounds_of_mem (l : List Nat) (hs : l.Sorted (· ≤ ·))
    (x : Nat) (hx : x ∈ l) :
    l.getD 0 0 ≤ x ∧ x ≤ l.getD (l.length - 1) 0 := by
  rcases List.mem_iff_getElem.mp hx with ⟨i, hi, rfl⟩
  rw [← List.getD_eq_getElem l 0 hi]
  exact ⟨sorted_getD_mono l hs 0 i (Nat.zero_le _) hi,
    sorted_getD_mono l hs i (l.length - 1) (by omega) (by omega)⟩

lemma mul_length_le_sum (c : Nat) :
    ∀ l : List Nat, (∀ x ∈ l, c ≤ x) → c * l.length ≤ l.sum
  | [], _ => by simp
  | a :: t, h => by
    have h1 : c ≤ a := h a (by simp)
    have h2 := mul_length_le_sum c t (fun x hx => h x (by simp [hx]))
    simp only [List.length_cons, List.sum_cons]
    have h3 : c * (t.length + 1) = c * t.length + c := by ring
    omega

lemma sum_le_mul_length (c : Nat) :
    ∀ l : List Nat, (∀ x ∈ l, x ≤ c) → l.sum ≤ c * l.length
  | [], _ => by simp
  | a :: t, h => by
    have h1 : a ≤ c := h a (by simp)
    have h2 := sum_le_mul_length c t (fun x hx => h x (by simp [hx]))
    simp only [List.length_cons, List.sum_cons]
    have h3 : c * (t.length + 1) = c * t.length + c := by ring
    omega

/-- C7: for every harness with at least one recorded (result, duration) pair
and all recorded results identical, the emitted statistics satisfy
`min ≤ median ≤ max` and `min ≤ average ≤ max`. -/
theorem print_stats_bounds (b : Benchmark)
    (hlen : b.results.length = b.durations.length)
    (hall : ∀ i, i < b.results.length → b.results.getD i 0 = b.results.getD 0 0)
    (hne : b.results ≠ []) :
    ∃ b2 s, b.print = Except.ok (b2, s)
      ∧ s.min ≤ s.mid ∧ s.mid ≤ s.max ∧ s.min ≤ s.avg ∧ s.avg ≤ s.max := by
  have hdne : b.durations ≠ [] := by
    intro hd
    apply hne
    have h0 : b.results.length = 0 := by rw [hlen, hd]; rfl
    exact List.length_eq_zero.mp h0
  refine ⟨_, _, print_of_all_eq b ((all_eq_iff_getD b.results).mpr hall) hdne,
    ?_, ?_, ?_, ?_⟩ <;> dsimp only
  all_goals {
    have hs := List.sorted_insertionSort (· ≤ ·) b.durations
    have hlength : (b.durations.insertionSort (· ≤ ·)).length = b.durations.length :=
      List.length_insertionSort _ _
    have hpos : 0 < b.durations.length := List.length_pos.mpr hdne
    have hsne : b.durations.insertionSort (· ≤ ·) ≠ [] := by
      intro h0
      rw [h0] at hlength
      simp at hlength
      omega
    first
    | -- min ≤ mid
      (rw [headD_eq_getD_zero]
       exact sorted_getD_mono _ hs 0 (b.durations.length / 2) (Nat.zero_le _)
         (by omega))
    | -- mid ≤ max
      (rw [getLastD_eq_getD _ hsne]
       exact sorted_getD_mono _ hs (b.durations.length / 2)
         ((b.durations.insertionSort (· ≤ ·)).length - 1) (by omega) (by omega))
    | -- min ≤ avg
      (rw [headD_eq_getD_zero, Nat.le_div_iff_mul_le hpos]
       have hb := mul_length_le_sum ((b.durations.insertionSort (· ≤ ·)).getD 0 0)
         (b.durations.insertionSort (· ≤ ·))
         (fun x hx => (sorted_bounds_of_mem _ hs x hx).1)
       rw [hlength] at hb
       omega)
    | -- avg ≤ max
      (rw [getLastD_eq_getD _ hsne, hlength]
       have hb := sum_le_mul_length
         ((b.durations.insertionSort (· ≤ ·)).getD
           ((b.durations.insertionSort (· ≤ ·)).length - 1) 0)
         (b.durations.insertionSort (· ≤ ·))
         (fun x hx => (sorted_bounds_of_mem _ hs x hx).2)
       rw [hlength] at hb
       calc (b.durations.insertionSort (· ≤ ·)).sum / b.durations.length
           ≤ ((b.durations.insertionSort (· ≤ ·)).getD (b.durations.length - 1) 0
                 * b.durations.length) / b.durations.length := by
             apply Nat.div_le_div_right
             omega
         _ = (b.durations.insertionSort (· ≤ ·)).getD (b.durations.length - 1) 0 :=
             Nat.mul_div_cancel _ hpos) }

/-- Witness for C7 at three identical results and durations `[6, 2, 4]`. -/
theorem print_stats_bounds_witness :
    ∃ b2 s,
      (Benchmark.mk "count_odds_parallel_optimized" [3, 3, 3] [6, 2, 4]).print
          = Except.ok (b2, s)
        ∧ s.min ≤ s.mid ∧ s.mid ≤ s.max ∧ s.min ≤ s.avg ∧ s.avg ≤ s.max :=
  print_stats_bounds
    (Benchmark.mk "count_odds_parallel_optimized" [3, 3, 3] [6, 2, 4])
    rfl (by decide) (by decide)

/-! ### Frame effect of `print` and properties of the chunk assignment -/

/-- C10: a successful `print` leaves the harness name and results unchanged
and replaces the durations with the ascending-sorted permutation of the
recorded durations (the in-place sort destroys the insertion order). -/
theorem print_frame_sorts_durations (b b2 : Benchmark) (s : Stats)
    (h : b.print = Except.ok (b2, s)) :
    b2.name = b.name ∧ b2.results = b.results
      ∧ b2.durations.Perm b.durations ∧ b2.durations.Sorted (· ≤ ·) := by
  rcases hcase : b.results.all (fun r => r == b.results.headD 0) with _ | _
  · rw [(print_assert_error_iff b).mpr hcase] at h
    simp at h
  · by_cases hd : b.durations = []
    · rw [print_nil_durations b hcase hd] at h
      simp at h
    · rw [print_of_all_eq b hcase hd] at h
      simp only [Except.ok.injEq, Prod.mk.injEq] at h
      obtain ⟨hb2, hs⟩ := h
      subst hb2
      exact ⟨rfl, rfl, List.perm_insertionSort _ _, List.sorted_insertionSort _ _⟩

/-- Witness for C10: `print` on durations `[5, 4]` returns the harness with
durations sorted to `[4, 5]`, name and results untouched. -/
theorem print_frame_sorts_durations_witness :
    (Benchmark.mk "count_odds_parallel" [1, 1] [4, 5]).name
        = (Benchmark.mk "count_odds_parallel" [1, 1] [5, 4]).name
      ∧ (Benchmark.mk "count_odds_parallel" [1, 1] [4, 5]).results
          = (Benchmark.mk "count_odds_parallel" [1, 1] [5, 4]).results
      ∧ (Benchmark.mk "count_odds_parallel" [1, 1] [4, 5]).durations.Perm
          (Benchmark.mk "count_odds_parallel" [1, 1] [5, 4]).durations
      ∧ (Benchmark.mk "count_odds_parallel" [1, 1] [4, 5]).durations.Sorted (· ≤ ·) :=
  print_frame_sorts_durations
    (Benchmark.mk "count_odds_parallel" [1, 1] [5, 4])
    (Benchmark.mk "count_odds_parallel" [1, 1] [4, 5])
    (Stats.mk 4 5 4 5) rfl

/-- C4: `Partition` at `N = 10000`, `P = 4` (the source constants) yields 4
ranges; their union is exactly `[0, 10000)`; they are pairwise disjoint (any
index lying in two of them forces them equal); and every range before the
last is non-empty. -/
theorem partition_10000_4 :
    (Partition 10000 4).length = 4
      ∧ (∀ i : Nat, (∃ r ∈ Partition 10000 4, r.1 ≤ i ∧ i < r.2) ↔ i < 10000)
      ∧ (∀ r ∈ Partition 10000 4, ∀ q ∈ Partition 10000 4, ∀ i : Nat,
          r.1 ≤ i → i < r.2 → q.1 ≤ i → i < q.2 → r = q)
      ∧ (∀ p : Nat, p < 3 → my_start 10000 4 p < my_end 10000 4 p) := by
  have hP : Partition 10000 4
      = [(0, 2501), (2501, 5002), (5002, 7503), (7503, 10000)] := by decide
  refine ⟨by rw [hP]; rfl, ?_, ?_, ?_⟩
  · intro i
    rw [hP]
    constructor
    · rintro ⟨r, hr, h1, h2⟩
      simp only [List.mem_cons, List.not_mem_nil, or_false] at hr
      rcases hr with rfl | rfl | rfl | rfl <;> simp only at h1 h2 <;> omega
    · intro hi
      by_cases c1 : i < 2501
      · exact ⟨(0, 2501), by simp, Nat.zero_le i, c1⟩
      · by_cases c2 : i < 5002
        · exact ⟨(2501, 5002), by simp, (by omega : 2501 ≤ i), c2⟩
        · by_cases c3 : i < 7503
          · exact ⟨(5002, 7503), by simp, (by omega : 5002 ≤ i), c3⟩
          · exact ⟨(7503, 10000), by simp, (by omega : 7503 ≤ i), hi⟩
  · intro r hr q hq i h1 h2 h3 h4
    rw [hP] at hr hq
    simp only [List.mem_cons, List.not_mem_nil, or_false] at hr hq
    rcases hr with rfl | rfl | rfl | rfl <;> rcases hq with rfl | rfl | rfl | rfl <;>
      first
        | rfl
        | (exfalso; simp only at h1 h2 h3 h4; omega)
  · intro p hp
    interval_cases p <;> decide

/-- Witness for C4: the first range is non-empty. -/
theorem partition_10000_4_witness :
    my_start 10000 4 0 < my_end 10000 4 0 :=
  partition_10000_4.2.2.2 0 (by omega)

/-- C8: there are `N` and `P` with `1 ≤ P ≤ N` for which the reference chunk
formula `N / P + 1` exceeds true ceiling division `(N + P - 1) / P` by
exactly `P - 1` elements, and the trailing worker gets an empty range
(its start is at or beyond its end).  Witnessed by `N = 2`, `P = 2`. -/
theorem chunk_formula_overallocates :
    ∃ N wc : Nat, 1 ≤ wc ∧ wc ≤ N
      ∧ chunk_size N wc = (N + wc - 1) / wc + (wc - 1)
      ∧ my_end N wc (wc - 1) ≤ my_start N wc (wc - 1) :=
  ⟨2, 2, by decide, by decide, by decide, by decide⟩

end CpuCaches
